import Mathlib

/-!
Verification of the session-orchestration subsystem of the Catanatron web UI.

Each component named in the specification is shallowly embedded below,
translated from the TypeScript sources:

* `RollReconciler` — `src/ui/src/hooks/useRollDisplay.ts`
* `TradePanel`     — `src/ui/src/components/TradePanel.tsx`
* `BotOrch`        — the Bot Turn Orchestrator of `GameScreen`
  (`botProcessingRef` / `processBots` and the React effect around them)
* `Stats`          — the Negotiation Stats Aggregator (`calculateNegotiationStats`;
  its implementation file is absent from the sources, so it is modelled from the
  specification and validated against `negotiationStats.test.ts`)

Machine integers of the source are modelled as `Int`/`Nat`; nullable values as
`Option`; JavaScript truthiness where the source relies on it is made explicit.
-/

namespace RollReconciler

/-- Dice pair, `RollValue = [number, number]` in `useRollDisplay.ts`. -/
abbrev RollValue := Nat × Nat

/-- One entry of `gameState.action_records` as read by `extractLatestRoll`:
`record[0][1]` is the action kind and `record[1]` the result payload, which
is cast to `RollValue` for `"ROLL"` records. For non-roll records the result
slot is never read, so it is typed as a pair throughout. -/
structure ActionRecord where
  actor : String
  kind : String
  result : RollValue
deriving DecidableEq, Repr

/-- The roll key: `` `${roll[0]}-${roll[1]}-${i}` ``. -/
def mkKey (r : RollValue) (i : Nat) : String :=
  toString r.1 ++ "-" ++ toString r.2 ++ "-" ++ toString i

/-- Backward scan over the indexed records, first `"ROLL"` wins —
the `for (let i = length - 1; i >= 0; i--)` loop of `extractLatestRoll`. -/
def lastRollAux : List (Nat × ActionRecord) → Option (RollValue × String)
  | [] => none
  | (i, r) :: rest =>
    if r.kind = "ROLL" then some (r.result, mkKey r.result i) else lastRollAux rest

/-- `extractLatestRoll` (the `roll`/`key` fields of `RollInfo` are produced
together, so the pair is a single `Option`). `none` models the
`{ roll: null, key: null }` result. -/
def extractLatestRoll (log : List ActionRecord) : Option (RollValue × String) :=
  lastRollAux log.enum.reverse

/-- The four `useState` slots of `useRollDisplay`. -/
structure RollSt where
  displayRoll : Option RollValue
  displayRollKey : Option String
  overlayRoll : Option RollValue
  overlayKey : Option String
deriving DecidableEq, Repr

def initRollSt : RollSt := ⟨none, none, none, none⟩

/-- The branch of the `useRollDisplay` effect taken when `extractLatestRoll`
found a roll: adopt it as displayed when nothing is displayed or queued,
queue it when its identity differs from both slots, otherwise no change. -/
def observeRoll (roll : RollValue) (key : String) (s : RollSt) : RollSt :=
  if s.displayRollKey = none ∧ s.overlayKey = none then
    { s with displayRoll := some roll, displayRollKey := some key }
  else if some key ≠ s.displayRollKey ∧ some key ≠ s.overlayKey then
    { s with overlayRoll := some roll, overlayKey := some key }
  else s

/-- The body of the `useEffect` of `useRollDisplay`, run on each observation of
`gameState` (`none` = the hook is given a null game state). -/
def observe (gameState : Option (List ActionRecord)) (s : RollSt) : RollSt :=
  match gameState with
  | none => initRollSt
  | some log =>
    match extractLatestRoll log with
    | none => s
    | some (roll, key) => observeRoll roll key s

/-- `finalizeOverlay`: promote the queued roll (when both slots are set) and
always clear the queue. -/
def finalizeOverlay (s : RollSt) : RollSt :=
  if s.overlayKey ≠ none ∧ s.overlayRoll ≠ none then
    ⟨s.overlayRoll, s.overlayKey, none, none⟩
  else
    ⟨s.displayRoll, s.displayRollKey, none, none⟩

/-- An interaction with the hook: a snapshot observation, a session reset
(null game state), or an animation-complete `finalizeOverlay` call. -/
inductive RollOp where
  | obs (log : List ActionRecord)
  | reset
  | animDone
deriving DecidableEq, Repr

def rollStep (s : RollSt) : RollOp → RollSt
  | .obs log => observe (some log) s
  | .reset => observe none s
  | .animDone => finalizeOverlay s

def rollRun (s : RollSt) : List RollOp → RollSt
  | [] => s
  | op :: rest => rollRun (rollStep s op) rest

/-- Whether key `k` is the identity of a roll record of the log, scanning with
a running index (identity = log position combined with value, as in `mkKey`). -/
def keyInLogFrom (i : Nat) (k : String) : List ActionRecord → Bool
  | [] => false
  | r :: rest => (r.kind == "ROLL" && k == mkKey r.result i) || keyInLogFrom (i + 1) k rest

def keyInLog (log : List ActionRecord) (k : String) : Bool :=
  keyInLogFrom 0 k log

/-- A sequence of hook interactions is log-monotone when every observed log
extends the previously observed one (the action log is append-only within a
session) and a reset restarts from the empty log. -/
def logMonotone (cur : List ActionRecord) : List RollOp → Bool
  | [] => true
  | .obs log :: rest => cur.isPrefixOf log && logMonotone log rest
  | .reset :: rest => logMonotone [] rest
  | .animDone :: rest => logMonotone cur rest

/-- The log current after running the interaction sequence. -/
def finalLog (cur : List ActionRecord) : List RollOp → List ActionRecord
  | [] => cur
  | .obs log :: rest => finalLog log rest
  | .reset :: rest => finalLog [] rest
  | .animDone :: rest => finalLog cur rest

/-- A nullable key is sound for a log when it is absent or is the identity of a
roll record of that log. -/
def keyOk (cur : List ActionRecord) : Option String → Bool
  | none => true
  | some k => keyInLog cur k

theorem lastRollAux_mem (l : List (Nat × ActionRecord)) (r : RollValue) (k : String)
    (h : lastRollAux l = some (r, k)) :
    ∃ i rec, (i, rec) ∈ l ∧ rec.kind = "ROLL" ∧ k = mkKey rec.result i := by
  induction l with
  | nil => simp [lastRollAux] at h
  | cons p rest ih =>
    obtain ⟨i, rec⟩ := p
    by_cases hk : rec.kind = "ROLL"
    · simp only [lastRollAux, if_pos hk, Option.some.injEq, Prod.mk.injEq] at h
      exact ⟨i, rec, List.mem_cons_self _ _, hk, h.2.symm⟩
    · simp only [lastRollAux, if_neg hk] at h
      obtain ⟨i', rec', hmem, hkind, hkey⟩ := ih h
      exact ⟨i', rec', List.mem_cons_of_mem _ hmem, hkind, hkey⟩

theorem keyInLogFrom_of_mem (log : List ActionRecord) :
    ∀ (n i : Nat) (rec : ActionRecord), (i, rec) ∈ List.enumFrom n log →
    rec.kind = "ROLL" → keyInLogFrom n (mkKey rec.result i) log = true := by
  induction log with
  | nil => intro n i rec h; simp [List.enumFrom] at h
  | cons x xs ih =>
    intro n i rec h hk
    simp only [List.enumFrom, List.mem_cons, Prod.mk.injEq] at h
    rcases h with ⟨rfl, rfl⟩ | h
    · simp [keyInLogFrom, hk]
    · simp only [keyInLogFrom, Bool.or_eq_true]
      exact Or.inr (ih (n + 1) i rec h hk)

theorem keyInLog_of_extract (log : List ActionRecord) (r : RollValue) (k : String)
    (h : extractLatestRoll log = some (r, k)) : keyInLog log k = true := by
  obtain ⟨i, rec, hmem, hkind, hkey⟩ := lastRollAux_mem _ _ _ h
  rw [List.mem_reverse] at hmem
  subst hkey
  exact keyInLogFrom_of_mem log 0 i rec hmem hkind

theorem keyInLogFrom_append (k : String) (t : List ActionRecord) :
    ∀ (cur : List ActionRecord) (i : Nat),
    keyInLogFrom i k cur = true → keyInLogFrom i k (cur ++ t) = true := by
  intro cur
  induction cur with
  | nil => intro i h; simp [keyInLogFrom] at h
  | cons x xs ih =>
    intro i h
    simp only [keyInLogFrom, Bool.or_eq_true] at h ⊢
    rcases h with h | h
    · exact Or.inl h
    · exact Or.inr (ih (i + 1) h)

theorem keyOk_append (cur t : List ActionRecord) (o : Option String)
    (h : keyOk cur o = true) : keyOk (cur ++ t) o = true := by
  cases o with
  | none => rfl
  | some k => exact keyInLogFrom_append k t cur 0 h

theorem observe_keyOk (cur t : List ActionRecord) (s : RollSt)
    (hd : keyOk cur s.displayRollKey = true) (ho : keyOk cur s.overlayKey = true) :
    keyOk (cur ++ t) (observe (some (cur ++ t)) s).displayRollKey = true ∧
    keyOk (cur ++ t) (observe (some (cur ++ t)) s).overlayKey = true := by
  have hd' := keyOk_append cur t _ hd
  have ho' := keyOk_append cur t _ ho
  simp only [observe]
  cases hx : extractLatestRoll (cur ++ t) with
  | none => exact ⟨hd', ho'⟩
  | some p =>
    obtain ⟨r, k⟩ := p
    have hk : keyInLog (cur ++ t) k = true := keyInLog_of_extract _ _ _ hx
    show keyOk (cur ++ t) (observeRoll r k s).displayRollKey = true ∧
      keyOk (cur ++ t) (observeRoll r k s).overlayKey = true
    unfold observeRoll
    by_cases h1 : s.displayRollKey = none ∧ s.overlayKey = none
    · rw [if_pos h1]
      refine ⟨hk, ?_⟩
      show keyOk (cur ++ t) s.overlayKey = true
      rw [h1.2]
      rfl
    · rw [if_neg h1]
      by_cases h2 : some k ≠ s.displayRollKey ∧ some k ≠ s.overlayKey
      · rw [if_pos h2]
        exact ⟨hd', hk⟩
      · rw [if_neg h2]
        exact ⟨hd', ho'⟩

theorem finalize_keyOk (cur : List ActionRecord) (s : RollSt)
    (hd : keyOk cur s.displayRollKey = true) (ho : keyOk cur s.overlayKey = true) :
    keyOk cur (finalizeOverlay s).displayRollKey = true ∧
    keyOk cur (finalizeOverlay s).overlayKey = true := by
  unfold finalizeOverlay
  by_cases h : s.overlayKey ≠ none ∧ s.overlayRoll ≠ none
  · simp only [if_pos h]
    exact ⟨ho, rfl⟩
  · simp only [if_neg h]
    exact ⟨hd, rfl⟩

theorem rollRun_keyOk (ops : List RollOp) :
    ∀ (cur : List ActionRecord) (s : RollSt),
    logMonotone cur ops = true →
    keyOk cur s.displayRollKey = true → keyOk cur s.overlayKey = true →
    keyOk (finalLog cur ops) (rollRun s ops).displayRollKey = true ∧
    keyOk (finalLog cur ops) (rollRun s ops).overlayKey = true := by
  induction ops with
  | nil => intro cur s _ hd ho; exact ⟨hd, ho⟩
  | cons op rest ih =>
    intro cur s hmono hd ho
    cases op with
    | obs log =>
      simp only [logMonotone, Bool.and_eq_true] at hmono
      obtain ⟨hpre, hrest⟩ := hmono
      have hpre' : cur <+: log := by
        rwa [List.isPrefixOf_iff_prefix] at hpre
      obtain ⟨t, rfl⟩ := hpre'
      have hstep := observe_keyOk cur t s hd ho
      exact ih (cur ++ t) _ hrest hstep.1 hstep.2
    | reset =>
      simp only [logMonotone] at hmono
      exact ih [] initRollSt hmono rfl rfl
    | animDone =>
      simp only [logMonotone] at hmono
      have hstep := finalize_keyOk cur s hd ho
      exact ih cur _ hmono hstep.1 hstep.2

/-- A non-roll record (result slot never read for these). -/
def turnRec (a : String) : ActionRecord := ⟨a, "END_TURN", (0, 0)⟩

/-- Scenario C, first observation: the log whose last roll is `(3,4)` at index 5. -/
def scenLog1 : List ActionRecord :=
  [turnRec "RED", turnRec "BLUE", turnRec "WHITE", turnRec "ORANGE", turnRec "RED",
    ⟨"RED", "ROLL", (3, 4)⟩]

/-- Scenario C, second observation: the same log extended so that a roll `(1,2)`
sits at index 9. -/
def scenLog2 : List ActionRecord :=
  scenLog1 ++ [turnRec "BLUE", turnRec "WHITE", turnRec "ORANGE", ⟨"BLUE", "ROLL", (1, 2)⟩]

/-- A state with a roll already displayed and nothing queued. -/
def demoDisplayed : RollSt := ⟨some (3, 4), some "3-4-5", none, none⟩

end RollReconciler

namespace RollReconciler

/-- C6: an observation whose roll identity differs from both the displayed and
the queued identity becomes the queued roll while the displayed roll is
unchanged; the single queued slot is overwritten (so a queued roll can be
dropped), and the new queued identity never duplicates the displayed one. -/
theorem queuedRollUpdate (s : RollSt) (log : List ActionRecord) (r : RollValue) (k : String)
    (hdisp : s.displayRollKey ≠ none)
    (hlatest : extractLatestRoll log = some (r, k))
    (hne1 : some k ≠ s.displayRollKey) (hne2 : some k ≠ s.overlayKey) :
    (observe (some log) s).overlayKey = some k ∧
    (observe (some log) s).overlayRoll = some r ∧
    (observe (some log) s).displayRoll = s.displayRoll ∧
    (observe (some log) s).displayRollKey = s.displayRollKey ∧
    (observe (some log) s).overlayKey ≠ (observe (some log) s).displayRollKey ∧
    (∀ kOld, s.overlayKey = some kOld → (observe (some log) s).overlayKey ≠ some kOld) := by
  have h1 : ¬(s.displayRollKey = none ∧ s.overlayKey = none) := fun h => hdisp h.1
  have hobs : observe (some log) s = { s with overlayRoll := some r, overlayKey := some k } := by
    simp only [observe]
    rw [hlatest]
    show observeRoll r k s = _
    unfold observeRoll
    rw [if_neg h1, if_pos ⟨hne1, hne2⟩]
  rw [hobs]
  refine ⟨rfl, rfl, rfl, rfl, ?_, ?_⟩
  · exact fun h => hne1 h
  · intro kOld hOld h
    apply hne2
    rw [hOld]
    exact h

/-- C6 witness: queueing `(1,2)` at index 9 behind a displayed `(3,4)`. -/
theorem queuedRollUpdate_witness :
    (observe (some scenLog2) demoDisplayed).overlayKey = some "1-2-9" ∧
    (observe (some scenLog2) demoDisplayed).displayRollKey = some "3-4-5" := by
  have h := queuedRollUpdate demoDisplayed scenLog2 (1, 2) "1-2-9"
    (by decide) (by decide) (by decide) (by decide)
  exact ⟨h.1, h.2.2.2.1⟩

/-- C7: the first observed roll is adopted immediately as displayed;
`finalizeOverlay` promotes the queued roll and clears the queue; and on
Scenario C the hook shows `(3,4)` with nothing queued, then queues `(1,2)`,
and displays `(1,2)` with an empty queue after finalize. -/
theorem adoptFinalizeScenario :
    (∀ log r k, extractLatestRoll log = some (r, k) →
      observe (some log) initRollSt = ⟨some r, some k, none, none⟩) ∧
    (∀ (s : RollSt) k r, s.overlayKey = some k → s.overlayRoll = some r →
      finalizeOverlay s = ⟨some r, some k, none, none⟩) ∧
    ((observe (some scenLog1) initRollSt).displayRoll = some (3, 4) ∧
      (observe (some scenLog1) initRollSt).overlayKey = none ∧
      (observe (some scenLog2) (observe (some scenLog1) initRollSt)).overlayRoll = some (1, 2) ∧
      (observe (some scenLog2) (observe (some scenLog1) initRollSt)).displayRoll = some (3, 4) ∧
      (finalizeOverlay (observe (some scenLog2) (observe (some scenLog1) initRollSt))).displayRoll
        = some (1, 2) ∧
      (finalizeOverlay (observe (some scenLog2) (observe (some scenLog1) initRollSt))).overlayKey
        = none) := by
  refine ⟨?_, ?_, by decide⟩
  · intro log r k h
    simp only [observe]
    rw [h]
    show observeRoll r k initRollSt = _
    unfold observeRoll
    rw [if_pos ⟨rfl, rfl⟩]
    rfl
  · intro s k r hk hr
    unfold finalizeOverlay
    rw [if_pos ⟨by simp [hk], by simp [hr]⟩, hk, hr]

/-- C7 witness: the general parts instantiated on Scenario C's first log. -/
theorem adoptFinalizeScenario_witness :
    observe (some scenLog1) initRollSt = ⟨some (3, 4), some "3-4-5", none, none⟩ ∧
    finalizeOverlay ⟨some (3, 4), some "3-4-5", some (1, 2), some "1-2-9"⟩
      = ⟨some (1, 2), some "1-2-9", none, none⟩ := by
  refine ⟨adoptFinalizeScenario.1 scenLog1 (3, 4) "3-4-5" (by decide), ?_⟩
  exact adoptFinalizeScenario.2.1 ⟨some (3, 4), some "3-4-5", some (1, 2), some "1-2-9"⟩
    "1-2-9" (1, 2) rfl rfl

/-- C8: over any log-monotone sequence of observations, resets and finalizes,
the displayed value is null or the identity of a roll record of the current
log, and at no time are two distinct identities displayed simultaneously. -/
theorem displayedRollSound (ops : List RollOp) (hmono : logMonotone [] ops = true) :
    (∀ k, (rollRun initRollSt ops).displayRollKey = some k →
      keyInLog (finalLog [] ops) k = true) ∧
    (∀ k₁ k₂, (rollRun initRollSt ops).displayRollKey = some k₁ →
      (rollRun initRollSt ops).displayRollKey = some k₂ → k₁ = k₂) := by
  have h := rollRun_keyOk ops [] initRollSt hmono rfl rfl
  constructor
  · intro k hk
    have h1 := h.1
    rw [hk] at h1
    exact h1
  · intro k₁ k₂ h1 h2
    rw [h1] at h2
    exact Option.some.inj h2

/-- C8 witness: Scenario C's observations followed by a finalize leave the
promoted identity `1-2-9`, which is a roll record of the final log. -/
theorem displayedRollSound_witness :
    keyInLog (finalLog [] [RollOp.obs scenLog1, RollOp.obs scenLog2, RollOp.animDone])
      "1-2-9" = true :=
  (displayedRollSound [RollOp.obs scenLog1, RollOp.obs scenLog2, RollOp.animDone]
    (by decide)).1 "1-2-9" (by decide)

end RollReconciler

namespace TradePanel

/-- A JavaScript value as read out of `gameState.player_state[...]`:
absent (`undefined`), a number, or a boolean. -/
inductive JsVal where
  | undef
  | num (n : Int)
  | jbool (b : Bool)
deriving DecidableEq, Repr

/-- JavaScript `Boolean(x)` on the values above. -/
def truthy : JsVal → Bool
  | .undef => false
  | .num n => n ≠ 0
  | .jbool b => b

/-- `x ?? 0` followed by numeric use, as in `availableCounts`. -/
def toCount : JsVal → Int
  | .undef => 0
  | .num n => n
  | .jbool b => if b then 1 else 0

/-- `RESOURCE_ORDER`. -/
def RESOURCE_ORDER : List String := ["WOOD", "BRICK", "SHEEP", "WHEAT", "ORE"]

/-- A resource-count array (`ResourceCounts`, five slots in `RESOURCE_ORDER`). -/
abbrev ResourceCounts := List Int

/-- `createEmptyCounts()`. -/
def createEmptyCounts : ResourceCounts := [0, 0, 0, 0, 0]

/-- One entry of `TradeSummary.acceptees`. -/
structure TradeAcceptee where
  color : String
  accepted : Bool
deriving DecidableEq, Repr

/-- `TradeSummary` as read by the panel. -/
structure TradeSummary where
  offerer_color : String
  offer : ResourceCounts
  request : ResourceCounts
  acceptees : List TradeAcceptee
deriving DecidableEq, Repr

/-- A playable action as read by the panel (`action[0]` actor, `action[1]`
kind; the payload is only used for button labels, not for availability). -/
structure GameAction where
  actor : String
  kind : String
deriving DecidableEq, Repr

/-- The slice of `GameState` that `TradePanel` reads. -/
structure GameStateT where
  current_color : String
  current_prompt : String
  winning_color : Option String
  trade : Option TradeSummary
  player_state : String → JsVal
  current_playable_actions : List GameAction

/-- `availableCounts`: the viewer's holdings looked up per resource
(`gameState.player_state[`${key}_${resource}_IN_HAND`] ?? 0`). -/
def availableCounts (gs : GameStateT) (key : String) : ResourceCounts :=
  RESOURCE_ORDER.map (fun res => toCount (gs.player_state (key ++ "_" ++ res ++ "_IN_HAND")))

/-- `hasRolled = Boolean(gameState.player_state[`${humanKey}_HAS_ROLLED`])`. -/
def hasRolled (gs : GameStateT) (key : String) : Bool :=
  truthy (gs.player_state (key ++ "_HAS_ROLLED"))

/-- `isPlayersTurn`. -/
def isPlayersTurn (gs : GameStateT) (humanColor : String) : Bool :=
  gs.current_color == humanColor && gs.current_prompt == "PLAY_TURN"

/-- `tradeActive = Boolean(gameState.trade)`. -/
def tradeActive (gs : GameStateT) : Bool := gs.trade.isSome

/-- `gameFinished = Boolean(gameState.winning_color)`. -/
def gameFinished (gs : GameStateT) : Bool := gs.winning_color.isSome

/-- `offer.reduce((sum, count) => sum + count, 0)`. -/
def countTotal (counts : ResourceCounts) : Int := counts.foldl (· + ·) 0

/-- The inline validation chain of `TradePanel` (the attached message strings
are elided; the constructors stand for the four distinct errors in source
order). -/
inductive VError where
  | insufficient
  | sameResource
  | offerEmpty
  | requestEmpty
deriving DecidableEq, Repr

/-- `validationError`: first failing check wins, `none` means the draft passes
(`findIndex ... >= 0` is the same test as `any` on the zipped lists). -/
def validationError (avail offer request : ResourceCounts) : Option VError :=
  if (offer.zip avail).any (fun p => p.1 > p.2) then some .insufficient
  else if (offer.zip request).any (fun p => p.1 > 0 && p.2 > 0) then some .sameResource
  else if countTotal offer = 0 then some .offerEmpty
  else if countTotal request = 0 then some .requestEmpty
  else none

/-- `isTradeOfferer`. -/
def isTradeOfferer (gs : GameStateT) (humanColor : String) : Bool :=
  match gs.trade with
  | some t => t.offerer_color == humanColor
  | none => false

/-- `canProposeTrade`. -/
def canProposeTrade (gs : GameStateT) (humanColor key : String) : Bool :=
  isPlayersTurn gs humanColor && hasRolled gs key && !gameFinished gs &&
    (!tradeActive gs || isTradeOfferer gs humanColor)

/-- `canSubmitProposal` (the propose button is disabled when this is false,
so `handleProposeTrade` only ever submits a draft satisfying it). -/
def canSubmitProposal (gs : GameStateT) (humanColor key : String)
    (offer request : ResourceCounts) (pendingAction : Option String) : Bool :=
  canProposeTrade gs humanColor key &&
    (validationError (availableCounts gs key) offer request).isNone &&
    pendingAction.isNone &&
    countTotal offer > 0 && countTotal request > 0

/-- `awaitingResponse`. -/
def awaitingResponse (gs : GameStateT) (humanColor : String) : Bool :=
  gs.current_prompt == "DECIDE_TRADE" && gs.current_color == humanColor

/-- `decidingPartner`. -/
def decidingPartner (gs : GameStateT) (humanColor : String) : Bool :=
  gs.current_prompt == "DECIDE_ACCEPTEES" && gs.current_color == humanColor

/-- `confirmActions`: the CONFIRM_TRADE entries of the legal-action list,
rendered only in the deciding-partner state. -/
def confirmActions (gs : GameStateT) (humanColor : String) : List GameAction :=
  if decidingPartner gs humanColor then
    gs.current_playable_actions.filter (fun a => a.kind == "CONFIRM_TRADE")
  else []

/-- `hasAcceptedPartners` (via `acceptedColors`). -/
def acceptedColors (t : TradeSummary) : List String :=
  (t.acceptees.filter (fun a => a.accepted)).map (fun a => a.color)

def hasAcceptedPartners (t : TradeSummary) : Bool :=
  (acceptedColors t).length > 0

/-- `hasRejectedPlayers`. -/
def hasRejectedPlayers (gs : GameStateT) (humanColor : String) : Bool :=
  decidingPartner gs humanColor &&
    (match gs.trade with
      | some t => t.acceptees.any (fun a => !a.accepted && a.color != t.offerer_color)
      | none => false)

/-- Whether each rendered confirm button is enabled:
`disabled={pendingAction !== null || hasRejectedPlayers}`. -/
def confirmEnabled (gs : GameStateT) (humanColor : String)
    (pendingAction : Option String) : Bool :=
  pendingAction.isNone && !hasRejectedPlayers gs humanColor

/-- `withdrawAction` is offered exactly when a trade is active and the viewer
is its offerer. -/
def withdrawAvailable (gs : GameStateT) (humanColor : String) : Bool :=
  tradeActive gs && isTradeOfferer gs humanColor

/-- The withdraw button: `disabled={pendingAction !== null}`. -/
def withdrawEnabled (pendingAction : Option String) : Bool :=
  pendingAction.isNone

/-- The offerer's status note under the trade summary: either the
accepted-partners message or the distinct awaiting-responses message
(`hasAcceptedPartners ? ... : "まだ誰も交渉に応じていません..."`). -/
inductive OffererNote where
  | acceptedBy (colors : List String)
  | awaitingResponses
deriving DecidableEq, Repr

def offererStatusNote (t : TradeSummary) : OffererNote :=
  if hasAcceptedPartners t then .acceptedBy (acceptedColors t) else .awaitingResponses

/-- The per-acceptee display of `TradeSummaryView`: one waiting chip when the
acceptee list is empty, otherwise one chip per counterparty. -/
inductive AcceptanceDisplay where
  | awaitingAll
  | perPlayer (entries : List (String × Bool))
deriving DecidableEq, Repr

def tradeSummaryAcceptances (t : TradeSummary) : AcceptanceDisplay :=
  if t.acceptees.length = 0 then .awaitingAll
  else .perPlayer (t.acceptees.map (fun a => (a.color, a.accepted)))

end TradePanel

namespace TradePanel

/-- The local draft: the `offer`/`request` `useState` pair. -/
structure Draft where
  offer : ResourceCounts
  request : ResourceCounts
deriving DecidableEq, Repr

def emptyDraft : Draft := ⟨createEmptyCounts, createEmptyCounts⟩

/-- One slot update of `handleAdjust`:
`Math.max(0, Math.min(upperBound, next[index] + delta))`, where the upper
bound is `Number.POSITIVE_INFINITY` (`none`) when no limit is supplied. -/
def adjustCount (c δ : Int) : Option Int → Int
  | some u => max 0 (min u (c + δ))
  | none => max 0 (c + δ)

/-- The operations that mutate the draft in `TradePanel`: the four counter
buttons (offer adjustments carry the `availableCounts[index]` limit used by
`incrementOffer`), the reset button, the holdings-change clamp effect, and the
form reset after a successfully submitted proposal
(`submitAction(action, { resetForm: true })`). -/
inductive DraftOp where
  | adjOffer (i : Nat) (δ : Int) (limit : Option Int)
  | adjRequest (i : Nat) (δ : Int)
  | resetForm
  | clampToHoldings (avail : ResourceCounts)
  | submitProposalSuccess
deriving DecidableEq, Repr

def applyOp (d : Draft) : DraftOp → Draft
  | .adjOffer i δ lim => ⟨d.offer.set i (adjustCount (d.offer.getD i 0) δ lim), d.request⟩
  | .adjRequest i δ => ⟨d.offer, d.request.set i (adjustCount (d.request.getD i 0) δ none)⟩
  | .resetForm => emptyDraft
  | .clampToHoldings avail => ⟨List.zipWith min d.offer avail, d.request⟩
  | .submitProposalSuccess => emptyDraft

def applyOps (d : Draft) : List DraftOp → Draft
  | [] => d
  | op :: rest => applyOps (applyOp d op) rest

/-- Holdings reported by the backend are non-negative; the only operation needing
this is the clamp. -/
def opSafe : DraftOp → Bool
  | .clampToHoldings avail => avail.all (fun x => 0 ≤ x)
  | _ => true

def opsSafe (ops : List DraftOp) : Bool := ops.all opSafe

/-- The draft-validity predicate exactly as the specification words it:
all quantities non-negative, no resource on both sides, offered within the
viewer's holdings, and both totals positive. -/
def specValidDraft (avail offer request : ResourceCounts) : Prop :=
  (∀ x ∈ offer, 0 ≤ x) ∧ (∀ x ∈ request, 0 ≤ x) ∧
  (∀ p ∈ offer.zip request, ¬(0 < p.1 ∧ 0 < p.2)) ∧
  (∀ p ∈ offer.zip avail, p.1 ≤ p.2) ∧
  0 < countTotal offer ∧ 0 < countTotal request

theorem emptyDraft_nonneg :
    (∀ x ∈ emptyDraft.offer, 0 ≤ x) ∧ (∀ x ∈ emptyDraft.request, 0 ≤ x) := by
  decide

theorem adjustCount_nonneg (c δ : Int) (lim : Option Int) : 0 ≤ adjustCount c δ lim := by
  cases lim with
  | none => exact le_max_left 0 _
  | some u => exact le_max_left 0 _

theorem nonneg_set (l : List Int) (i : Nat) (v : Int)
    (hl : ∀ x ∈ l, 0 ≤ x) (hv : 0 ≤ v) : ∀ x ∈ l.set i v, 0 ≤ x := by
  intro x hx
  rcases List.mem_or_eq_of_mem_set hx with h | rfl
  · exact hl x h
  · exact hv

theorem nonneg_zipWith_min (l₁ l₂ : List Int) :
    (∀ x ∈ l₁, 0 ≤ x) → (∀ x ∈ l₂, 0 ≤ x) → ∀ x ∈ List.zipWith min l₁ l₂, 0 ≤ x := by
  induction l₁ generalizing l₂ with
  | nil => intro _ _ x hx; simp at hx
  | cons a l ih =>
    intro h1 h2 x hx
    cases l₂ with
    | nil => simp at hx
    | cons b l' =>
      simp only [List.zipWith, List.mem_cons] at hx
      rcases hx with rfl | hx
      · exact le_min (h1 a (List.mem_cons_self _ _)) (h2 b (List.mem_cons_self _ _))
      · exact ih l' (fun y hy => h1 y (List.mem_cons_of_mem _ hy))
          (fun y hy => h2 y (List.mem_cons_of_mem _ hy)) x hx

theorem applyOp_nonneg (d : Draft) (op : DraftOp) (hop : opSafe op = true)
    (ho : ∀ x ∈ d.offer, 0 ≤ x) (hr : ∀ x ∈ d.request, 0 ≤ x) :
    (∀ x ∈ (applyOp d op).offer, 0 ≤ x) ∧ (∀ x ∈ (applyOp d op).request, 0 ≤ x) := by
  cases op with
  | adjOffer i δ lim =>
    exact ⟨nonneg_set _ i _ ho (adjustCount_nonneg _ _ _), hr⟩
  | adjRequest i δ =>
    exact ⟨ho, nonneg_set _ i _ hr (adjustCount_nonneg _ _ _)⟩
  | resetForm => exact ⟨emptyDraft_nonneg.1, emptyDraft_nonneg.2⟩
  | clampToHoldings avail =>
    have ha : ∀ x ∈ avail, 0 ≤ x := by
      intro x hx
      have := List.all_eq_true.mp hop x hx
      simpa using this
    exact ⟨nonneg_zipWith_min _ _ ho ha, hr⟩
  | submitProposalSuccess => exact ⟨emptyDraft_nonneg.1, emptyDraft_nonneg.2⟩

theorem applyOps_nonneg (ops : List DraftOp) :
    ∀ (d : Draft), opsSafe ops = true →
    (∀ x ∈ d.offer, 0 ≤ x) → (∀ x ∈ d.request, 0 ≤ x) →
    (∀ x ∈ (applyOps d ops).offer, 0 ≤ x) ∧ (∀ x ∈ (applyOps d ops).request, 0 ≤ x) := by
  induction ops with
  | nil => intro d _ ho hr; exact ⟨ho, hr⟩
  | cons op rest ih =>
    intro d hsafe ho hr
    simp only [opsSafe, List.all_cons, Bool.and_eq_true] at hsafe
    have hstep := applyOp_nonneg d op hsafe.1 ho hr
    exact ih (applyOp d op) hsafe.2 hstep.1 hstep.2

theorem foldl_add_nonneg (l : List Int) (h : ∀ x ∈ l, 0 ≤ x) :
    ∀ init : Int, 0 ≤ init → 0 ≤ l.foldl (· + ·) init := by
  induction l with
  | nil => intro init hi; exact hi
  | cons a rest ih =>
    intro init hi
    exact ih (fun x hx => h x (List.mem_cons_of_mem _ hx)) (init + a)
      (add_nonneg hi (h a (List.mem_cons_self _ _)))

theorem countTotal_nonneg (l : List Int) (h : ∀ x ∈ l, 0 ≤ x) : 0 ≤ countTotal l :=
  foldl_add_nonneg l h 0 le_rfl

theorem validationError_none_iff (avail offer request : ResourceCounts)
    (hno : ∀ x ∈ offer, 0 ≤ x) (hnr : ∀ x ∈ request, 0 ≤ x) :
    validationError avail offer request = none ↔ specValidDraft avail offer request := by
  unfold validationError specValidDraft
  split_ifs with h1 h2 h3 h4
  · simp only [List.any_eq_true, decide_eq_true_eq] at h1
    obtain ⟨p, hp, hgt⟩ := h1
    constructor
    · intro h; exact absurd h (by simp)
    · intro h
      exact absurd (h.2.2.2.1 p hp) (not_le.mpr hgt)
  · simp only [List.any_eq_true, Bool.and_eq_true, decide_eq_true_eq] at h2
    obtain ⟨p, hp, hgt⟩ := h2
    constructor
    · intro h; exact absurd h (by simp)
    · intro h
      exact absurd hgt (h.2.2.1 p hp)
  · constructor
    · intro h; exact absurd h (by simp)
    · intro h
      rw [h3] at h
      exact absurd h.2.2.2.2.1 (lt_irrefl 0)
  · constructor
    · intro h; exact absurd h (by simp)
    · intro h
      rw [h4] at h
      exact absurd h.2.2.2.2.2 (lt_irrefl 0)
  · simp only [List.any_eq_true, Bool.and_eq_true, decide_eq_true_eq, not_exists] at h1 h2
    push_neg at h1 h2
    constructor
    · intro _
      refine ⟨hno, hnr, ?_, ?_, ?_, ?_⟩
      · intro p hp hcontra
        exact absurd hcontra.2 (not_lt.mpr (h2 p hp hcontra.1))
      · intro p hp
        exact h1 p hp
      · exact lt_of_le_of_ne (countTotal_nonneg offer hno) (Ne.symm h3)
      · exact lt_of_le_of_ne (countTotal_nonneg request hnr) (Ne.symm h4)
    · intro _; rfl

theorem zipWith_min_le_right (l₁ l₂ : List Int) :
    ∀ p ∈ (List.zipWith min l₁ l₂).zip l₂, p.1 ≤ p.2 := by
  induction l₁ generalizing l₂ with
  | nil => intro p hp; simp at hp
  | cons a l ih =>
    intro p hp
    cases l₂ with
    | nil => simp at hp
    | cons b l' =>
      simp only [List.zipWith, List.zip_cons_cons, List.mem_cons] at hp
      rcases hp with rfl | hp
      · exact min_le_right a b
      · exact ih l' p hp

end TradePanel

namespace TradePanel

/-- A concrete viewer state for witnesses: RED to play, dice rolled, two wood
in hand, no winner, no open trade. -/
def demoState : GameStateT :=
  { current_color := "RED"
    current_prompt := "PLAY_TURN"
    winning_color := none
    trade := none
    player_state := fun s =>
      if s = "P0_HAS_ROLLED" then .jbool true
      else if s = "P0_WOOD_IN_HAND" then .num 2
      else .undef
    current_playable_actions := [] }

/-- A concrete deciding-partner state: RED's offer, BLUE accepted and WHITE
did not, RED choosing a partner. -/
def demoTrade : TradeSummary :=
  { offerer_color := "RED"
    offer := [1, 0, 0, 0, 0]
    request := [0, 1, 0, 0, 0]
    acceptees := [⟨"BLUE", true⟩, ⟨"WHITE", false⟩] }

def demoDeciding : GameStateT :=
  { current_color := "RED"
    current_prompt := "DECIDE_ACCEPTEES"
    winning_color := none
    trade := some demoTrade
    player_state := fun _ => .undef
    current_playable_actions := [⟨"RED", "CONFIRM_TRADE"⟩] }

/-- A trade nobody has accepted yet. -/
def demoTradeNoAccept : TradeSummary :=
  { offerer_color := "RED"
    offer := [1, 0, 0, 0, 0]
    request := [0, 1, 0, 0, 0]
    acceptees := [⟨"BLUE", false⟩] }

end TradePanel

namespace TradePanel

/-- C3: with no open trade, the propose affordance is available exactly when
it is the viewer's turn, the dice have been rolled this turn and no winner
exists; it is never available when the dice are unrolled, nor when a trade is
open and the viewer is not its offerer. -/
theorem proposeAffordanceSound (gs : GameStateT) (humanColor key : String) :
    (gs.trade = none →
      canProposeTrade gs humanColor key =
        (isPlayersTurn gs humanColor && hasRolled gs key && !gameFinished gs)) ∧
    (hasRolled gs key = false → canProposeTrade gs humanColor key = false) ∧
    (∀ t, gs.trade = some t → t.offerer_color ≠ humanColor →
      canProposeTrade gs humanColor key = false) := by
  refine ⟨?_, ?_, ?_⟩
  · intro hnone
    unfold canProposeTrade tradeActive
    rw [hnone]
    simp
  · intro hroll
    unfold canProposeTrade
    rw [hroll]
    simp
  · intro t ht hne
    unfold canProposeTrade tradeActive isTradeOfferer
    rw [ht]
    simp [hne]

/-- C3 witness: the three parts at concrete states (no trade; dice unrolled;
open trade owned by another player). -/
theorem proposeAffordanceSound_witness :
    canProposeTrade demoState "RED" "P0" =
      (isPlayersTurn demoState "RED" && hasRolled demoState "P0" && !gameFinished demoState) ∧
    canProposeTrade demoState "RED" "P1" = false ∧
    canProposeTrade demoDeciding "BLUE" "P1" = false := by
  refine ⟨(proposeAffordanceSound demoState "RED" "P0").1 rfl,
    (proposeAffordanceSound demoState "RED" "P1").2.1 (by decide), ?_⟩
  exact (proposeAffordanceSound demoDeciding "BLUE" "P1").2.2 demoTrade rfl (by decide)

/-- C4: once a non-offerer has rejected an open trade, every confirm button is
disabled (regardless of other acceptances) while the offerer's withdraw
affordance remains available and enabled; and a trade with zero acceptances is
rendered as a distinct awaiting-responses state, not as an error. -/
theorem rejectionSuppressesConfirm (gs : GameStateT) (humanColor : String)
    (pending : Option String) (t : TradeSummary) :
    (hasRejectedPlayers gs humanColor = true →
      confirmEnabled gs humanColor pending = false) ∧
    (isTradeOfferer gs humanColor = true →
      withdrawAvailable gs humanColor = true ∧
      (pending = none → withdrawEnabled pending = true)) ∧
    (hasAcceptedPartners t = false → offererStatusNote t = .awaitingResponses) ∧
    (t.acceptees = [] → tradeSummaryAcceptances t = .awaitingAll) ∧
    OffererNote.awaitingResponses ≠ OffererNote.acceptedBy (acceptedColors t) := by
  refine ⟨?_, ?_, ?_, ?_, by simp⟩
  · intro hrej
    unfold confirmEnabled
    rw [hrej]
    simp
  · intro hoff
    constructor
    · unfold withdrawAvailable tradeActive
      unfold isTradeOfferer at hoff ⊢
      cases htr : gs.trade with
      | none => rw [htr] at hoff; simp at hoff
      | some t' =>
        rw [htr] at hoff
        simpa using hoff
    · intro hp
      rw [hp]
      rfl
  · intro hacc
    unfold offererStatusNote
    rw [hacc]
    simp
  · intro hemp
    unfold tradeSummaryAcceptances
    rw [hemp]
    rfl

/-- C4 witness: in the concrete deciding state WHITE's rejection disables the
confirm buttons although BLUE accepted, withdraw stays, and the no-acceptance
trade renders as awaiting responses. -/
theorem rejectionSuppressesConfirm_witness :
    confirmEnabled demoDeciding "RED" none = false ∧
    withdrawAvailable demoDeciding "RED" = true ∧
    offererStatusNote demoTradeNoAccept = .awaitingResponses := by
  have h := rejectionSuppressesConfirm demoDeciding "RED" none demoTradeNoAccept
  exact ⟨h.1 (by decide), (h.2.1 (by decide)).1, h.2.2.1 (by decide)⟩

end TradePanel

namespace TradePanel

/-- C5: any draft reachable through the panel's controls has only non-negative
quantities; it passes the inline validation exactly when it satisfies the
specification's validity conditions (no resource on both sides, offered within
the viewer's holdings, both totals positive, all quantities non-negative); and
whenever the submit gate `canSubmitProposal` is open the draft is valid, so an
invalid draft is never submitted. -/
theorem draftValidationSound (ops : List DraftOp) (gs : GameStateT)
    (humanColor key : String) (pending : Option String)
    (hsafe : opsSafe ops = true) :
    ((∀ x ∈ (applyOps emptyDraft ops).offer, 0 ≤ x) ∧
      (∀ x ∈ (applyOps emptyDraft ops).request, 0 ≤ x)) ∧
    (validationError (availableCounts gs key) (applyOps emptyDraft ops).offer
        (applyOps emptyDraft ops).request = none ↔
      specValidDraft (availableCounts gs key) (applyOps emptyDraft ops).offer
        (applyOps emptyDraft ops).request) ∧
    (canSubmitProposal gs humanColor key (applyOps emptyDraft ops).offer
        (applyOps emptyDraft ops).request pending = true →
      specValidDraft (availableCounts gs key) (applyOps emptyDraft ops).offer
        (applyOps emptyDraft ops).request) := by
  have hnn := applyOps_nonneg ops emptyDraft hsafe emptyDraft_nonneg.1 emptyDraft_nonneg.2
  have hiff := validationError_none_iff (availableCounts gs key)
    (applyOps emptyDraft ops).offer (applyOps emptyDraft ops).request hnn.1 hnn.2
  refine ⟨hnn, hiff, ?_⟩
  intro hsub
  unfold canSubmitProposal at hsub
  simp only [Bool.and_eq_true] at hsub
  exact hiff.mp (Option.isNone_iff_eq_none.mp hsub.1.1.1.2)

/-- C5 witness: offering one wood for one brick with two wood in hand passes
the gate, and the gated draft is valid. -/
theorem draftValidationSound_witness :
    specValidDraft (availableCounts demoState "P0")
      (applyOps emptyDraft [DraftOp.adjOffer 0 1 (some 2), DraftOp.adjRequest 1 1]).offer
      (applyOps emptyDraft [DraftOp.adjOffer 0 1 (some 2), DraftOp.adjRequest 1 1]).request :=
  (draftValidationSound [DraftOp.adjOffer 0 1 (some 2), DraftOp.adjRequest 1 1]
    demoState "RED" "P0" none (by decide)).2.2 (by decide)

/-- C10: a successfully submitted proposal resets the draft to the empty
draft, and a holdings change clamps every offered quantity to at most the new
holdings while leaving the requested side unchanged. -/
theorem draftResetOnSubmitAndClamp (d : Draft) (avail : ResourceCounts) :
    applyOp d .submitProposalSuccess = emptyDraft ∧
    (∀ p ∈ ((applyOp d (.clampToHoldings avail)).offer).zip avail, p.1 ≤ p.2) ∧
    (applyOp d (.clampToHoldings avail)).request = d.request := by
  exact ⟨rfl, zipWith_min_le_right d.offer avail, rfl⟩

/-- C10 witness: clamping an offer of three wood to a holding of one. -/
theorem draftResetOnSubmitAndClamp_witness :
    applyOp ⟨[3, 0, 0, 0, 0], [0, 1, 0, 0, 0]⟩ .submitProposalSuccess = emptyDraft ∧
    (1, 1).1 ≤ ((1 : Int), (1 : Int)).2 := by
  refine ⟨(draftResetOnSubmitAndClamp ⟨[3, 0, 0, 0, 0], [0, 1, 0, 0, 0]⟩
    [1, 2, 0, 0, 0]).1, ?_⟩
  exact (draftResetOnSubmitAndClamp ⟨[3, 0, 0, 0, 0], [0, 1, 0, 0, 0]⟩
    [1, 2, 0, 0, 0]).2.1 (1, 1) (by decide)

end TradePanel

namespace BotOrch

/-- The snapshot fields read by the orchestrator: `isBotTurn(state)`
(`bot_colors.includes(current_color) && !winning_color`) and
`is_initial_build_phase`. -/
structure Snap where
  turnIsBot : Bool
  initialBuild : Bool
deriving DecidableEq, Repr

/-- Where a `processBots` invocation is suspended: in `wait` (the thinking
delay timer), in `await postAction` (a move submission in flight), or done
(loop exited and `finally` ran, or abandoned after its pending timer was
cleared by the effect cleanup). -/
inductive Pc where
  | delaying
  | submitting
  | finished
deriving DecidableEq, Repr

/-- One `processBots` coroutine. `hasHuman` is the component-scope
`hasHumanPlayer` captured by the effect closure; `cancelled` is the
closure-local `cancelled` token, set only by the effect cleanup. -/
structure Cycle where
  cancelled : Bool
  hasHuman : Bool
  pc : Pc
deriving DecidableEq, Repr

/-- The synchronous run from the `while (!cancelled && isBotTurn(nextState))`
head down to the next suspension point: exit the loop, suspend in the
thinking delay (`hasHumanPlayer && !is_initial_build_phase`), or call
`postAction` at once. -/
def loopEnter (cancelled hasHuman : Bool) (st : Snap) : Pc :=
  if cancelled || !st.turnIsBot then .finished
  else if hasHuman && !st.initialBuild then .delaying
  else .submitting

/-- Observable events, recorded in order: a cycle starting, the effect
cleanup cancelling the cycle it registered, a `postAction` submission being
issued, a snapshot being published (`dispatch(SET_GAME_STATE)` from the
cycle), and a cycle ending. -/
inductive Ev where
  | startCycle (i : Nat)
  | cancelCycle (i : Nat)
  | submitIssue (i : Nat)
  | publish (i : Nat)
  | finishCycle (i : Nat)
deriving DecidableEq, Repr

/-- The orchestrator's state for one mounted component: every cycle ever
started (index = cycle id), the `botProcessingRef.current` guard, which
cycle's cleanup is registered (React stores the destructor returned by the
last effect run), and the event log. -/
structure OState where
  cycles : List Cycle
  flag : Bool
  destroyOf : Option Nat
  log : List Ev
deriving DecidableEq, Repr

def initO : OState := ⟨[], false, none, []⟩

/-- Scheduler actions: a re-run of the effect after its dependencies changed
(a snapshot arrival or another dep change — React runs the registered cleanup
first, then the body), an unmount (cleanup only), a thinking-delay timer
firing, and an in-flight `postAction` resolving with a snapshot. -/
inductive Act where
  | effectRun (st : Snap) (hasHuman : Bool)
  | unmount
  | timerFire (i : Nat)
  | resolve (i : Nat) (st : Snap)
deriving DecidableEq, Repr

/-- The effect cleanup: `cancelled = true; clearTimeout(...); setIsBotThinking(false);
botProcessingRef.current = false`. Clearing the timer of a cycle suspended in
`wait` means that coroutine never resumes, so it is marked finished. -/
def runDestroy (s : OState) : OState :=
  match s.destroyOf with
  | none => s
  | some i =>
    match s.cycles[i]? with
    | none => { s with destroyOf := none }
    | some c =>
      { cycles := s.cycles.set i
          { c with cancelled := true, pc := if c.pc = .delaying then .finished else c.pc }
        flag := false
        destroyOf := none
        log := s.log ++ [.cancelCycle i] }

/-- The effect body: return unless `isBotTurn` holds and the guard is clear;
otherwise set the guard and start `processBots`, which runs synchronously to
its first suspension (`turnIsBot` holds here, so the new cycle cannot finish
immediately). -/
def runBody (st : Snap) (hasHuman : Bool) (s : OState) : OState :=
  if st.turnIsBot && !s.flag then
    let i := s.cycles.length
    let pc := loopEnter false hasHuman st
    { cycles := s.cycles ++ [⟨false, hasHuman, pc⟩]
      flag := true
      destroyOf := some i
      log := s.log ++ [.startCycle i] ++ (if pc = .submitting then [.submitIssue i] else []) }
  else s

/-- One scheduler step. `none` = the action is not enabled (no such suspended
coroutine). The `resolve` branch mirrors the source exactly: resume after
`await postAction`; `if (cancelled) break` ends the cycle without publishing
(its `finally` clears the guard); otherwise the snapshot is dispatched,
`nextState` updated, and the loop head re-entered. On `timerFire` the source
resumes from `await wait(...)` and calls `postAction` with no further check. -/
def step (s : OState) : Act → Option OState
  | .effectRun st hasHuman => some (runBody st hasHuman (runDestroy s))
  | .unmount => some (runDestroy s)
  | .timerFire i =>
    match s.cycles[i]? with
    | some c =>
      if c.pc = .delaying then
        some { s with
          cycles := s.cycles.set i { c with pc := .submitting }
          log := s.log ++ [.submitIssue i] }
      else none
    | none => none
  | .resolve i st =>
    match s.cycles[i]? with
    | some c =>
      if c.pc = .submitting then
        if c.cancelled then
          some { s with
            cycles := s.cycles.set i { c with pc := .finished }
            flag := false
            log := s.log ++ [.finishCycle i] }
        else
          some (let pc' := loopEnter false c.hasHuman st
            { cycles := s.cycles.set i { c with pc := pc' }
              flag := if pc' = .finished then false else s.flag
              destroyOf := s.destroyOf
              log := s.log ++ [.publish i] ++
                (if pc' = .submitting then [.submitIssue i]
                  else if pc' = .finished then [.finishCycle i] else []) })
      else none
    | none => none

def exec (s : OState) : List Act → Option OState
  | [] => some s
  | a :: rest =>
    match step s a with
    | none => none
    | some s' => exec s' rest

/-- Number of unresolved move submissions: one per cycle suspended in
`await postAction`. -/
def unresolvedSubs (s : OState) : Nat :=
  (s.cycles.filter (fun c => c.pc = Pc.submitting)).length

end BotOrch

namespace BotOrch

/-- Scan of the event log: after a `cancelCycle i` no `publish i` may follow.
The accumulator collects the cycles cancelled so far. -/
def scanOk (cancelled : List Nat) : List Ev → Bool
  | [] => true
  | .cancelCycle i :: rest => scanOk (i :: cancelled) rest
  | .publish i :: rest => !decide (i ∈ cancelled) && scanOk cancelled rest
  | .startCycle _ :: rest => scanOk cancelled rest
  | .submitIssue _ :: rest => scanOk cancelled rest
  | .finishCycle _ :: rest => scanOk cancelled rest

/-- No snapshot of a cancelled cycle is ever published afterwards. -/
def noPubAfterCancel (log : List Ev) : Bool := scanOk [] log

/-- The cycles cancelled somewhere in the log. -/
def cancelsof (log : List Ev) : List Nat :=
  log.filterMap (fun e => match e with | .cancelCycle i => some i | _ => none)

theorem scanOk_congr (l : List Ev) :
    ∀ c₁ c₂ : List Nat, (∀ x, x ∈ c₁ ↔ x ∈ c₂) → scanOk c₁ l = scanOk c₂ l := by
  induction l with
  | nil => intro _ _ _; rfl
  | cons e rest ih =>
    intro c₁ c₂ h
    cases e with
    | cancelCycle i =>
      exact ih (i :: c₁) (i :: c₂) (fun x => by simp [List.mem_cons, h x])
    | publish i =>
      simp only [scanOk]
      rw [ih c₁ c₂ h, decide_eq_decide.mpr (h i)]
    | startCycle i => exact ih c₁ c₂ h
    | submitIssue i => exact ih c₁ c₂ h
    | finishCycle i => exact ih c₁ c₂ h

theorem cancelsof_cancel (i : Nat) (rest : List Ev) :
    cancelsof (Ev.cancelCycle i :: rest) = i :: cancelsof rest := by
  simp [cancelsof, List.filterMap_cons]

theorem cancelsof_publish (i : Nat) (rest : List Ev) :
    cancelsof (Ev.publish i :: rest) = cancelsof rest := by
  simp [cancelsof, List.filterMap_cons]

theorem cancelsof_start (i : Nat) (rest : List Ev) :
    cancelsof (Ev.startCycle i :: rest) = cancelsof rest := by
  simp [cancelsof, List.filterMap_cons]

theorem cancelsof_submit (i : Nat) (rest : List Ev) :
    cancelsof (Ev.submitIssue i :: rest) = cancelsof rest := by
  simp [cancelsof, List.filterMap_cons]

theorem cancelsof_finish (i : Nat) (rest : List Ev) :
    cancelsof (Ev.finishCycle i :: rest) = cancelsof rest := by
  simp [cancelsof, List.filterMap_cons]

theorem scanOk_append (lB : List Ev) :
    ∀ (lA : List Ev) (c : List Nat),
    scanOk c (lA ++ lB) = (scanOk c lA && scanOk (cancelsof lA ++ c) lB) := by
  intro lA
  induction lA with
  | nil => intro c; simp [scanOk, cancelsof]
  | cons e rest ih =>
    intro c
    cases e with
    | cancelCycle i =>
      simp only [List.cons_append, scanOk, List.append_eq, cancelsof_cancel]
      rw [ih (i :: c)]
      congr 1
      refine scanOk_congr lB _ _ (fun x => ?_)
      simp only [List.mem_append, List.mem_cons]
      tauto
    | publish i =>
      simp only [List.cons_append, scanOk, List.append_eq, cancelsof_publish]
      rw [ih c, Bool.and_assoc]
    | startCycle i =>
      simp only [List.cons_append, scanOk, List.append_eq, cancelsof_start]
      rw [ih c]
    | submitIssue i =>
      simp only [List.cons_append, scanOk, List.append_eq, cancelsof_submit]
      rw [ih c]
    | finishCycle i =>
      simp only [List.cons_append, scanOk, List.append_eq, cancelsof_finish]
      rw [ih c]

theorem noPub_append (log Δ : List Ev) :
    noPubAfterCancel (log ++ Δ) =
      (noPubAfterCancel log && scanOk (cancelsof log) Δ) := by
  unfold noPubAfterCancel
  rw [scanOk_append Δ log, scanOk_congr Δ (cancelsof log ++ []) (cancelsof log) (by simp)]

theorem scanOk_of_noPublish (Δ : List Ev) :
    ∀ c, (∀ j, Ev.publish j ∉ Δ) → scanOk c Δ = true := by
  induction Δ with
  | nil => intro c _; rfl
  | cons e rest ih =>
    intro c h
    have hrest : ∀ j, Ev.publish j ∉ rest := fun j hj =>
      h j (List.mem_cons_of_mem _ hj)
    cases e with
    | cancelCycle i => exact ih (i :: c) hrest
    | publish i => exact absurd (List.mem_cons_self _ _) (h i)
    | startCycle i => exact ih c hrest
    | submitIssue i => exact ih c hrest
    | finishCycle i => exact ih c hrest

/-- Every cancelled-in-log cycle exists and carries its cancellation token. -/
def CancelClosed (s : OState) : Prop :=
  ∀ i ∈ cancelsof s.log, ∃ c, s.cycles[i]? = some c ∧ c.cancelled = true

def OInv (s : OState) : Prop := noPubAfterCancel s.log = true ∧ CancelClosed s

theorem cancelsof_append (lA lB : List Ev) :
    cancelsof (lA ++ lB) = cancelsof lA ++ cancelsof lB :=
  List.filterMap_append lA lB _

end BotOrch

namespace BotOrch

theorem scanOk_cancel_single (c : List Nat) (n : Nat) :
    scanOk c [Ev.cancelCycle n] = true := rfl

theorem scanOk_submit_single (c : List Nat) (n : Nat) :
    scanOk c [Ev.submitIssue n] = true := rfl

theorem scanOk_finish_single (c : List Nat) (n : Nat) :
    scanOk c [Ev.finishCycle n] = true := rfl

theorem scanOk_tail_ite (c : List Nat) (n : Nat) (p q : Prop) [Decidable p] [Decidable q] :
    scanOk c (if p then [Ev.submitIssue n] else if q then [Ev.finishCycle n] else []) = true := by
  split_ifs <;> rfl

theorem scanOk_start_then (c : List Nat) (n : Nat) (p : Prop) [Decidable p] :
    scanOk c ([Ev.startCycle n] ++ (if p then [Ev.submitIssue n] else [])) = true := by
  split_ifs <;> rfl

theorem cancels_submit_single (n : Nat) : cancelsof [Ev.submitIssue n] = [] := rfl

theorem cancels_finish_single (n : Nat) : cancelsof [Ev.finishCycle n] = [] := rfl

theorem cancels_publish_single (n : Nat) : cancelsof [Ev.publish n] = [] := rfl

theorem cancels_cancel_single (n : Nat) : cancelsof [Ev.cancelCycle n] = [n] := rfl

theorem cancels_start_then (n : Nat) (p : Prop) [Decidable p] :
    cancelsof ([Ev.startCycle n] ++ (if p then [Ev.submitIssue n] else [])) = [] := by
  split_ifs <;> rfl

theorem cancels_tail_ite (n : Nat) (p q : Prop) [Decidable p] [Decidable q] :
    cancelsof (if p then [Ev.submitIssue n] else if q then [Ev.finishCycle n] else []) = [] := by
  split_ifs <;> rfl

theorem CancelClosed_update (cycles : List Cycle) (log : List Ev) (i : Nat) (c c' : Cycle)
    (hc : cycles[i]? = some c)
    (hkeep : c.cancelled = true → c'.cancelled = true)
    (hCC : ∀ j ∈ cancelsof log, ∃ d, cycles[j]? = some d ∧ d.cancelled = true) :
    ∀ j ∈ cancelsof log, ∃ d, (cycles.set i c')[j]? = some d ∧ d.cancelled = true := by
  intro j hj
  obtain ⟨d, hd, hdc⟩ := hCC j hj
  by_cases hij : i = j
  · subst hij
    have hlt : i < cycles.length := (List.getElem?_eq_some_iff.mp hc).1
    have hcd : c = d := by
      rw [hc] at hd
      exact Option.some.inj hd
    refine ⟨c', ?_, hkeep (hcd ▸ hdc)⟩
    rw [List.getElem?_set_self hlt]
  · refine ⟨d, ?_, hdc⟩
    rw [List.getElem?_set_ne hij]
    exact hd

theorem CancelClosed_append (cycles newC : List Cycle) (log : List Ev)
    (hCC : ∀ j ∈ cancelsof log, ∃ d, cycles[j]? = some d ∧ d.cancelled = true) :
    ∀ j ∈ cancelsof log, ∃ d, (cycles ++ newC)[j]? = some d ∧ d.cancelled = true := by
  intro j hj
  obtain ⟨d, hd, hdc⟩ := hCC j hj
  refine ⟨d, ?_, hdc⟩
  rw [List.getElem?_append_left (List.getElem?_eq_some_iff.mp hd).1]
  exact hd

theorem runDestroy_inv (s : OState) (h : OInv s) : OInv (runDestroy s) := by
  cases hd : s.destroyOf with
  | none =>
    have hred : runDestroy s = s := by
      unfold runDestroy
      rw [hd]
    rw [hred]
    exact h
  | some i =>
    cases hc : s.cycles[i]? with
    | none =>
      have hred : runDestroy s =
          { cycles := s.cycles, flag := s.flag, destroyOf := none, log := s.log } := by
        unfold runDestroy
        simp only [hd, hc]
      rw [hred]
      exact ⟨h.1, h.2⟩
    | some c =>
      have hred : runDestroy s =
          { cycles := s.cycles.set i
              { c with cancelled := true, pc := if c.pc = .delaying then .finished else c.pc }
            flag := false
            destroyOf := none
            log := s.log ++ [Ev.cancelCycle i] } := by
        unfold runDestroy
        simp only [hd, hc]
      rw [hred]
      constructor
      · show noPubAfterCancel (s.log ++ [Ev.cancelCycle i]) = true
        rw [noPub_append, h.1, scanOk_cancel_single]
        rfl
      · intro j hj
      
        rw [show cancelsof (s.log ++ [Ev.cancelCycle i]) = cancelsof s.log ++ [i] from by
          rw [cancelsof_append, cancels_cancel_single]] at hj
        rcases List.mem_append.mp hj with hj | hj
        · exact CancelClosed_update s.cycles s.log i c _ hc (fun _ => rfl) h.2 j hj
        · have hji : j = i := by simpa using hj
          subst hji
          have hlt : j < s.cycles.length := (List.getElem?_eq_some_iff.mp hc).1
          exact ⟨{ c with cancelled := true, pc := if c.pc = Pc.delaying then Pc.finished else c.pc }, List.getElem?_set_self hlt, rfl⟩

theorem runBody_inv (st : Snap) (hh : Bool) (s : OState) (h : OInv s) :
    OInv (runBody st hh s) := by
  by_cases hcond : (st.turnIsBot && !s.flag) = true
  · have hred : runBody st hh s =
        { cycles := s.cycles ++ [⟨false, hh, loopEnter false hh st⟩]
          flag := true
          destroyOf := some s.cycles.length
          log := s.log ++ [Ev.startCycle s.cycles.length] ++
            (if loopEnter false hh st = Pc.submitting
              then [Ev.submitIssue s.cycles.length] else []) } := by
      unfold runBody
      rw [if_pos hcond]
    rw [hred]
    constructor
    · show noPubAfterCancel (s.log ++ [Ev.startCycle s.cycles.length] ++
        (if loopEnter false hh st = Pc.submitting then [Ev.submitIssue s.cycles.length] else []))
        = true
      rw [List.append_assoc, noPub_append, h.1, scanOk_start_then]
      rfl
    · intro j hj
      rw [show cancelsof (s.log ++ [Ev.startCycle s.cycles.length] ++
          (if loopEnter false hh st = Pc.submitting then [Ev.submitIssue s.cycles.length] else []))
          = cancelsof s.log from by
        rw [List.append_assoc, cancelsof_append, cancels_start_then, List.append_nil]] at hj
      exact CancelClosed_append s.cycles _ s.log h.2 j hj
  · have hred : runBody st hh s = s := by
      unfold runBody
      rw [if_neg hcond]
    rw [hred]
    exact h

theorem step_inv (s s' : OState) (a : Act) (hstep : step s a = some s') (h : OInv s) :
    OInv s' := by
  cases a with
  | effectRun st hh =>
    have hs' : runBody st hh (runDestroy s) = s' := by
      simpa [step] using hstep
    rw [← hs']
    exact runBody_inv st hh _ (runDestroy_inv s h)
  | unmount =>
    have hs' : runDestroy s = s' := by
      simpa [step] using hstep
    rw [← hs']
    exact runDestroy_inv s h
  | timerFire i =>
    simp only [step] at hstep
    cases hc : s.cycles[i]? with
    | none =>
      simp only [hc] at hstep
      exact Option.noConfusion hstep
    | some c =>
      simp only [hc] at hstep
      by_cases hpc : c.pc = Pc.delaying
      · rw [if_pos hpc, Option.some.injEq] at hstep
        rw [← hstep]
        constructor
        · show noPubAfterCancel (s.log ++ [Ev.submitIssue i]) = true
          rw [noPub_append, h.1, scanOk_submit_single]
          rfl
        · intro j hj
          rw [show cancelsof (s.log ++ [Ev.submitIssue i]) = cancelsof s.log from by
            rw [cancelsof_append, cancels_submit_single, List.append_nil]] at hj
          exact CancelClosed_update s.cycles s.log i c { cancelled := c.cancelled, hasHuman := c.hasHuman, pc := Pc.submitting } hc (fun hx => hx) h.2 j hj
      · rw [if_neg hpc] at hstep
        exact absurd hstep (by simp)
  | resolve i st =>
    simp only [step] at hstep
    cases hc : s.cycles[i]? with
    | none =>
      simp only [hc] at hstep
      exact Option.noConfusion hstep
    | some c =>
      simp only [hc] at hstep
      by_cases hpc : c.pc = Pc.submitting
      · rw [if_pos hpc] at hstep
        cases hcanc : c.cancelled with
        | true =>
          rw [hcanc, if_pos rfl, Option.some.injEq] at hstep
          rw [← hstep]
          constructor
          · show noPubAfterCancel (s.log ++ [Ev.finishCycle i]) = true
            rw [noPub_append, h.1, scanOk_finish_single]
            rfl
          · intro j hj
            rw [show cancelsof (s.log ++ [Ev.finishCycle i]) = cancelsof s.log from by
              rw [cancelsof_append, cancels_finish_single, List.append_nil]] at hj
            exact CancelClosed_update s.cycles s.log i c { cancelled := true, hasHuman := c.hasHuman, pc := Pc.finished } hc (fun _ => rfl) h.2 j hj
        | false =>
          rw [hcanc, if_neg Bool.false_ne_true, Option.some.injEq] at hstep
          rw [← hstep]
          have hni : (i ∈ cancelsof s.log) = False := by
            simp only [eq_iff_iff, iff_false]
            intro hmem
            obtain ⟨d, hd, hdc⟩ := h.2 i hmem
            rw [hc] at hd
            rw [← Option.some.inj hd] at hdc
            rw [hcanc] at hdc
            exact Bool.false_ne_true hdc
          constructor
          · show noPubAfterCancel (s.log ++ [Ev.publish i] ++
              (if loopEnter false c.hasHuman st = Pc.submitting then [Ev.submitIssue i]
                else if loopEnter false c.hasHuman st = Pc.finished then [Ev.finishCycle i]
                else [])) = true
            rw [List.append_assoc, noPub_append, h.1]
            show (true && scanOk (cancelsof s.log)
              ([Ev.publish i] ++
                (if loopEnter false c.hasHuman st = Pc.submitting then [Ev.submitIssue i]
                  else if loopEnter false c.hasHuman st = Pc.finished then [Ev.finishCycle i]
                  else []))) = true
            rw [scanOk_append]
            show (true && (((!decide (i ∈ cancelsof s.log)) && true) &&
              scanOk (cancelsof [Ev.publish i] ++ cancelsof s.log) _)) = true
            rw [scanOk_congr _ _ (cancelsof s.log) (by simp [cancels_publish_single]),
              scanOk_tail_ite]
            simp [hni]
          · intro j hj
            rw [show cancelsof (s.log ++ [Ev.publish i] ++
                (if loopEnter false c.hasHuman st = Pc.submitting then [Ev.submitIssue i]
                  else if loopEnter false c.hasHuman st = Pc.finished then [Ev.finishCycle i]
                  else [])) = cancelsof s.log from by
              rw [List.append_assoc, cancelsof_append, cancelsof_append,
                cancels_publish_single, cancels_tail_ite, List.append_nil, List.append_nil]] at hj
            exact CancelClosed_update s.cycles s.log i c { cancelled := false, hasHuman := c.hasHuman, pc := loopEnter false c.hasHuman st } hc (fun hx => absurd (hcanc.symm.trans hx) Bool.false_ne_true) h.2 j hj
      · rw [if_neg hpc] at hstep
        exact absurd hstep (by simp)

theorem exec_inv (acts : List Act) :
    ∀ s, OInv s → ∀ s', exec s acts = some s' → OInv s' := by
  induction acts with
  | nil =>
    intro s hs s' hx
    simp only [exec, Option.some.injEq] at hx
    rw [← hx]
    exact hs
  | cons a rest ih =>
    intro s hs s' hx
    unfold exec at hx
    cases hstep : step s a with
    | none => rw [hstep] at hx; exact absurd hx (by simp)
    | some s1 =>
      rw [hstep] at hx
      exact ih s1 (step_inv s s1 a hstep hs) s' hx

end BotOrch

namespace BotOrch

theorem scanOk_mem_no_pub (l : List Ev) :
    ∀ (c : List Nat) (i : Nat), scanOk c l = true → i ∈ c → Ev.publish i ∉ l := by
  induction l with
  | nil => intro c i _ _ hmem; simp at hmem
  | cons e rest ih =>
    intro c i hscan hic hmem
    cases e with
    | cancelCycle j =>
      rcases List.mem_cons.mp hmem with hx | hx
      · exact Ev.noConfusion hx
      · exact ih (j :: c) i hscan (List.mem_cons_of_mem _ hic) hx
    | publish j =>
      simp only [scanOk, Bool.and_eq_true, Bool.not_eq_true'] at hscan
      rcases List.mem_cons.mp hmem with hx | hx
      · have hji : j = i := (Ev.publish.injEq j i).mp hx.symm
        subst hji
        rw [decide_eq_false_iff_not] at hscan
        exact hscan.1 hic
      · exact ih c i hscan.2 hic hx
    | startCycle j =>
      rcases List.mem_cons.mp hmem with hx | hx
      · exact Ev.noConfusion hx
      · exact ih c i hscan hic hx
    | submitIssue j =>
      rcases List.mem_cons.mp hmem with hx | hx
      · exact Ev.noConfusion hx
      · exact ih c i hscan hic hx
    | finishCycle j =>
      rcases List.mem_cons.mp hmem with hx | hx
      · exact Ev.noConfusion hx
      · exact ih c i hscan hic hx

theorem scanOk_split (l₁ : List Ev) :
    ∀ (c : List Nat) (i : Nat) (l₂ : List Ev),
    scanOk c (l₁ ++ Ev.cancelCycle i :: l₂) = true → Ev.publish i ∉ l₂ := by
  induction l₁ with
  | nil =>
    intro c i l₂ hscan
    exact scanOk_mem_no_pub l₂ (i :: c) i hscan (List.mem_cons_self _ _)
  | cons e rest ih =>
    intro c i l₂ hscan
    cases e with
    | cancelCycle j => exact ih (j :: c) i l₂ hscan
    | publish j =>
      simp only [List.cons_append, scanOk, Bool.and_eq_true] at hscan
      exact ih c i l₂ hscan.2
    | startCycle j => exact ih c i l₂ hscan
    | submitIssue j => exact ih c i l₂ hscan
    | finishCycle j => exact ih c i l₂ hscan

end BotOrch

namespace BotOrch

/-- The schedule refuting C1: a bots-only session (no human, so `processBots`
never waits). The initial snapshot starts cycle 0, whose submission resolves
and — before the dispatched snapshot's effect re-run — issues the next
submission; the effect re-run then cancels cycle 0 via its cleanup (which also
resets `botProcessingRef`) and starts cycle 1, which submits at once. -/
def doubleSubmitActs : List Act :=
  [Act.effectRun ⟨true, true⟩ false, Act.resolve 0 ⟨true, true⟩,
    Act.effectRun ⟨true, true⟩ false]

/-- C1: the orchestrator does issue a second submission while a prior one is
unresolved, and a snapshot arrival does start a second cycle while the first
still runs: after `doubleSubmitActs`, cycle 0 (cancelled, its `postAction`
still pending) and the freshly started cycle 1 are both suspended in
`await postAction`, so two submissions for the session are simultaneously
unresolved. The guard flag does not block this because the effect cleanup
resets it before every effect body that could re-enter. -/
theorem doubleSubmissionUnresolved :
    (exec initO doubleSubmitActs).map unresolvedSubs = some 2 ∧
    (exec initO doubleSubmitActs).map OState.cycles =
      some [⟨true, false, Pc.submitting⟩, ⟨false, false, Pc.submitting⟩] := by
  decide

/-- A teardown trace for the C2 witness: a cycle starts and submits, then the
current actor stops being a bot, so the effect re-run cancels the cycle. -/
def cancelActs : List Act :=
  [Act.effectRun ⟨true, true⟩ false, Act.effectRun ⟨false, true⟩ false]

def cancelFinal : OState :=
  ⟨[⟨true, false, Pc.submitting⟩], false, none,
    [Ev.startCycle 0, Ev.submitIssue 0, Ev.cancelCycle 0]⟩

/-- C2: over every schedule, once a cycle's cancellation token is set (the
effect cleanup on teardown, dependency change or re-run), no snapshot of that
cycle is published afterwards: the whole event log satisfies the
no-publish-after-cancel scan, and in any split of the log at a `cancelCycle i`
no `publish i` occurs later. -/
theorem noPublishAfterCancellation (acts : List Act) (s : OState)
    (h : exec initO acts = some s) :
    noPubAfterCancel s.log = true ∧
    ∀ (l₁ : List Ev) (i : Nat) (l₂ : List Ev),
      s.log = l₁ ++ Ev.cancelCycle i :: l₂ → Ev.publish i ∉ l₂ := by
  have hinv : OInv s := exec_inv acts initO ⟨rfl, by intro j hj; simp [initO, cancelsof] at hj⟩ s h
  refine ⟨hinv.1, ?_⟩
  intro l₁ i l₂ hsplit
  have hscan := hinv.1
  unfold noPubAfterCancel at hscan
  rw [hsplit] at hscan
  exact scanOk_split l₁ [] i l₂ hscan

/-- C2 witness: on the teardown trace the final log scans clean, and no
publish of cycle 0 follows its cancellation. -/
theorem noPublishAfterCancellation_witness :
    noPubAfterCancel cancelFinal.log = true ∧
    Ev.publish 0 ∉ ([] : List Ev) := by
  have h := noPublishAfterCancellation cancelActs cancelFinal (by decide)
  exact ⟨h.1, h.2 [Ev.startCycle 0, Ev.submitIssue 0] 0 [] (by decide)⟩

end BotOrch

namespace Stats

/-- One action record as the aggregator reads it: acting color and kind. -/
structure StatRecord where
  actor : String
  kind : String
deriving DecidableEq, Repr

/-- An advice-request event: id, state index at request time, requesting
actor (`payload.requester_color`). -/
structure AdviceEvent where
  event_id : Nat
  state_index : Nat
  requester : String
deriving DecidableEq, Repr

/-- The snapshot slice the aggregator reads. -/
structure StatsInput where
  colors : List String
  bot_colors : List String
  action_records : List StatRecord
deriving DecidableEq, Repr

/-- Modelled from the spec: `getHumanColor` of `stateUtils.ts` is not among
the sources; per §4.4 the aggregator identifies the (single) human actor — the
first participant not in the automated set, none when all are automated. -/
def getHumanColor (gs : StatsInput) : Option String :=
  gs.colors.find? (fun c => !gs.bot_colors.contains c)

/-- Single linear scan counting the actor's records of one kind. -/
def countKind (actor kind : String) : List StatRecord → Nat
  | [] => 0
  | r :: rest => (if r.actor == actor && r.kind == kind then 1 else 0) + countKind actor kind rest

/-- Modelled from the spec: an advice event "led to an offer" when it is
immediately followed, before any turn-ending action, by an offer from the
same actor (§4.4, Scenario D). -/
def followAux (actor : String) : List StatRecord → Bool
  | [] => false
  | r :: rest =>
    if r.actor == actor && r.kind == "OFFER_TRADE" then true
    else if r.kind == "END_TURN" then false
    else followAux actor rest

/-- The aggregator's result fields involved in the numerical claims. -/
structure NegotiationStats where
  playerColor : Option String
  offerCount : Nat
  successCount : Nat
  successRate : ℚ
  adviceRequestCount : Nat
  adviceLedToOfferCount : Nat
  adviceFollowRate : ℚ
deriving DecidableEq, Repr

def emptyStats : NegotiationStats := ⟨none, 0, 0, 0, 0, 0, 0⟩

/-- Modelled from the spec: `calculateNegotiationStats` (its implementation
file `negotiationStats.ts` is absent from the sources; only its test is
present). No identifiable human → the null-actor all-zero result; otherwise
offerCount / successCount are the actor's offers and confirmations,
successRate = successCount/offerCount (0 at zero denominator),
adviceRequestCount the actor's advice events, adviceLedToOfferCount those
immediately followed by the actor's offer before a turn-ending action, and
adviceFollowRate their ratio (0 at zero denominator). -/
def calculateNegotiationStats (gs : StatsInput) (events : List AdviceEvent) :
    NegotiationStats :=
  match getHumanColor gs with
  | none => emptyStats
  | some actor =>
    let offerCount := countKind actor "OFFER_TRADE" gs.action_records
    let successCount := countKind actor "CONFIRM_TRADE" gs.action_records
    let myEvents := events.filter (fun e => e.requester == actor)
    let followed := myEvents.filter
      (fun e => followAux actor (gs.action_records.drop e.state_index))
    { playerColor := some actor
      offerCount := offerCount
      successCount := successCount
      successRate := if offerCount = 0 then 0 else (successCount : ℚ) / (offerCount : ℚ)
      adviceRequestCount := myEvents.length
      adviceLedToOfferCount := followed.length
      adviceFollowRate := if myEvents.length = 0 then 0
        else (followed.length : ℚ) / (myEvents.length : ℚ) }

/-- The §4.2 trade state machine as a log discipline: at most one open offer
(a new offer supersedes an unconfirmed one), and only the offerer confirms or
cancels. Logs violating it are the defensive-only InvariantViolation inputs
of §7. -/
def tradeLogOk (openOffer : Option String) : List StatRecord → Bool
  | [] => true
  | r :: rest =>
    if r.kind == "OFFER_TRADE" then tradeLogOk (some r.actor) rest
    else if r.kind == "CONFIRM_TRADE" || r.kind == "CANCEL_TRADE" then
      match openOffer with
      | some a => if a == r.actor then tradeLogOk none rest else false
      | none => false
    else tradeLogOk openOffer rest

end Stats

namespace Stats

theorem confirm_le_offer (recs : List StatRecord) (actor : String) :
    ∀ openOffer : Option String, tradeLogOk openOffer recs = true →
    countKind actor "CONFIRM_TRADE" recs ≤
      countKind actor "OFFER_TRADE" recs +
        (if openOffer = some actor then 1 else 0) := by
  have lA : ("OFFER_TRADE" == "CONFIRM_TRADE") = false := by decide
  have lB : ("CONFIRM_TRADE" == "OFFER_TRADE") = false := by decide
  have lC : ("CANCEL_TRADE" == "OFFER_TRADE") = false := by decide
  have lD : ("CANCEL_TRADE" == "CONFIRM_TRADE") = false := by decide
  induction recs with
  | nil =>
    intro o _
    simp [countKind]
  | cons r rest ih =>
    intro o hok
    by_cases hoff : r.kind = "OFFER_TRADE"
    · simp only [tradeLogOk, hoff] at hok
      simp at hok
      have hih := ih (some r.actor) hok
      by_cases hra : r.actor = actor
      · rw [hra] at hih
        simp only [Option.some.injEq] at hih
        simp at hih
        simp [countKind, hoff, hra, lA]
        split_ifs <;> omega
      · have hih' : countKind actor "CONFIRM_TRADE" rest ≤
            countKind actor "OFFER_TRADE" rest := by
          simpa [hra] using hih
        have hne : (r.actor == actor) = false := by simp [hra]
        simp [countKind, hoff, lA, hne]
        split_ifs <;> omega
    · have hb1 : (r.kind == "OFFER_TRADE") = false := by simp [hoff]
      by_cases hconf : r.kind = "CONFIRM_TRADE"
      · simp only [tradeLogOk, hconf] at hok
        simp at hok
        cases o with
        | none => simp at hok
        | some a =>
          by_cases har : a = r.actor
          · simp only [har] at hok
            simp at hok
            have hih : countKind actor "CONFIRM_TRADE" rest ≤
                countKind actor "OFFER_TRADE" rest := by
              simpa using ih none hok
            by_cases hra : r.actor = actor
            · simp [countKind, hconf, lB, hra, har]
              omega
            · have hne : (r.actor == actor) = false := by simp [hra]
              simp [countKind, hconf, lB, hne]
              split_ifs <;> omega
          · simp at hok
            exact absurd hok.1 har
      · by_cases hcanc : r.kind = "CANCEL_TRADE"
        · simp only [tradeLogOk, hcanc] at hok
          simp at hok
          cases o with
          | none => simp at hok
          | some a =>
            by_cases har : a = r.actor
            · simp only [har] at hok
              simp at hok
              have hih : countKind actor "CONFIRM_TRADE" rest ≤
                  countKind actor "OFFER_TRADE" rest := by
                simpa using ih none hok
              simp [countKind, hcanc, lC, lD]
              split_ifs <;> omega
            · simp at hok
              exact absurd hok.1 har
        · have hb2 : (r.kind == "CONFIRM_TRADE" || r.kind == "CANCEL_TRADE") = false := by
            have h1 : (r.kind == "CONFIRM_TRADE") = false := by simp [hconf]
            have h2 : (r.kind == "CANCEL_TRADE") = false := by simp [hcanc]
            rw [h1, h2]
            rfl
          simp only [tradeLogOk, hb1, Bool.false_eq_true, if_false, hb2] at hok
          have hih := ih o hok
          have hnc : (r.kind == "CONFIRM_TRADE") = false := by simp [hconf]
          simp [countKind, hb1, hnc]
          split_ifs at hih ⊢ <;> omega

end Stats

namespace Stats

theorem rateBounds (n d : Nat) (hnd : n ≤ d) :
    0 ≤ (if d = 0 then (0 : ℚ) else (n : ℚ) / (d : ℚ)) ∧
      (if d = 0 then (0 : ℚ) else (n : ℚ) / (d : ℚ)) ≤ 1 := by
  by_cases hd : d = 0
  · rw [if_pos hd]
    norm_num
  · rw [if_neg hd]
    have hdpos : (0 : ℚ) < (d : ℚ) := by
      exact_mod_cast Nat.pos_of_ne_zero hd
    constructor
    · exact div_nonneg (Nat.cast_nonneg n) (Nat.cast_nonneg d)
    · rw [div_le_one hdpos]
      exact_mod_cast hnd

/-- The test scenario of `negotiationStats.test.ts`: two offers by RED, one
confirmed, and two advice events of which only the first is followed by a RED
offer before a turn-ending action. -/
def testRecords : List StatRecord :=
  [⟨"RED", "OFFER_TRADE"⟩, ⟨"BLUE", "REJECT_TRADE"⟩, ⟨"WHITE", "REJECT_TRADE"⟩,
    ⟨"ORANGE", "REJECT_TRADE"⟩, ⟨"RED", "OFFER_TRADE"⟩, ⟨"BLUE", "ACCEPT_TRADE"⟩,
    ⟨"RED", "CONFIRM_TRADE"⟩, ⟨"RED", "END_TURN"⟩]

def testInput : StatsInput :=
  ⟨["RED", "BLUE", "WHITE", "ORANGE"], ["BLUE", "WHITE", "ORANGE"], testRecords⟩

def testEvents : List AdviceEvent := [⟨1, 0, "RED"⟩, ⟨2, 7, "RED"⟩]

/-- Validation of the spec-modelled aggregator against the expectations of
`negotiationStats.test.ts` (offerCount 2, successCount 1, successRate 0.5,
adviceRequestCount 2, adviceLedToOfferCount 1, adviceFollowRate 0.5). -/
theorem statsMatchTestScenario :
    (calculateNegotiationStats testInput testEvents).playerColor = some "RED" ∧
    (calculateNegotiationStats testInput testEvents).offerCount = 2 ∧
    (calculateNegotiationStats testInput testEvents).successCount = 1 ∧
    (calculateNegotiationStats testInput testEvents).successRate = 1 / 2 ∧
    (calculateNegotiationStats testInput testEvents).adviceRequestCount = 2 ∧
    (calculateNegotiationStats testInput testEvents).adviceLedToOfferCount = 1 ∧
    (calculateNegotiationStats testInput testEvents).adviceFollowRate = 1 / 2 := by
  refine ⟨rfl, rfl, rfl, ?_, rfl, rfl, ?_⟩
  · show ((1 : ℕ) : ℚ) / ((2 : ℕ) : ℚ) = 1 / 2
    norm_num
  · show ((1 : ℕ) : ℚ) / ((2 : ℕ) : ℚ) = 1 / 2
    norm_num

end Stats

namespace Stats

/-- C9: for every input whose action log respects the trade state machine,
successRate and adviceFollowRate lie in [0,1]; they are exactly 0 (a rational
zero, never a NaN — the guarded branch never divides) when their denominators
offerCount resp. adviceRequestCount are 0. -/
theorem statsRatesBounded (gs : StatsInput) (events : List AdviceEvent)
    (hwf : tradeLogOk none gs.action_records = true) :
    (0 ≤ (calculateNegotiationStats gs events).successRate ∧
      (calculateNegotiationStats gs events).successRate ≤ 1) ∧
    (0 ≤ (calculateNegotiationStats gs events).adviceFollowRate ∧
      (calculateNegotiationStats gs events).adviceFollowRate ≤ 1) ∧
    ((calculateNegotiationStats gs events).offerCount = 0 →
      (calculateNegotiationStats gs events).successRate = 0) ∧
    ((calculateNegotiationStats gs events).adviceRequestCount = 0 →
      (calculateNegotiationStats gs events).adviceFollowRate = 0) := by
  cases hhc : getHumanColor gs with
  | none =>
    simp only [calculateNegotiationStats, hhc]
    exact ⟨⟨le_refl 0, (by norm_num : (0 : ℚ) ≤ 1)⟩, ⟨le_refl 0, (by norm_num : (0 : ℚ) ≤ 1)⟩,
      fun _ => rfl, fun _ => rfl⟩
  | some actor =>
    simp only [calculateNegotiationStats, hhc]
    have hso : countKind actor "CONFIRM_TRADE" gs.action_records ≤
        countKind actor "OFFER_TRADE" gs.action_records := by
      simpa using confirm_le_offer gs.action_records actor none hwf
    have hfo : ((events.filter (fun e => e.requester == actor)).filter
          (fun e => followAux actor (gs.action_records.drop e.state_index))).length ≤
        (events.filter (fun e => e.requester == actor)).length :=
      List.length_filter_le _ _
    refine ⟨rateBounds _ _ hso, rateBounds _ _ hfo, ?_, ?_⟩
    · intro h0
      show (if countKind actor "OFFER_TRADE" gs.action_records = 0 then (0 : ℚ)
        else (countKind actor "CONFIRM_TRADE" gs.action_records : ℚ) /
          (countKind actor "OFFER_TRADE" gs.action_records : ℚ)) = 0
      rw [if_pos h0]
    · intro h0
      show (if (events.filter (fun e => e.requester == actor)).length = 0 then (0 : ℚ)
        else (((events.filter (fun e => e.requester == actor)).filter
            (fun e => followAux actor (gs.action_records.drop e.state_index))).length : ℚ) /
          ((events.filter (fun e => e.requester == actor)).length : ℚ)) = 0
      rw [if_pos h0]

/-- C9 witness: the test scenario respects the trade discipline, and its rates
are bounded. -/
theorem statsRatesBounded_witness :
    (calculateNegotiationStats testInput testEvents).successRate ≤ 1 ∧
    0 ≤ (calculateNegotiationStats testInput testEvents).adviceFollowRate := by
  have h := statsRatesBounded testInput testEvents (by decide)
  exact ⟨h.1.2, h.2.1.1⟩

end Stats
